import Mathlib

/-!
Shallow embedding of the wproxy repository (Go) — cache store and policy
(`internal/cache/cache.go`), token-bucket rate limiter and key extractors
(`internal/ratelimit`).  Machine integers are modelled as `Int`
(`time.Duration` and timestamps are `Int` nanoseconds, except the rate
limiter where times are rationals in seconds, matching the Go code's use
of `time.Duration.Seconds()`).  Go `float64` token arithmetic is modelled
exactly over `ℚ`; every value manipulated by the claims is exactly
representable in `float64`, so no rounding behaviour is lost for the
properties stated here.
-/

namespace WProxy

/-! ### HTTP header model

Go `http.Header` is a map from canonical header names to lists of values.
We model it as an association list keyed by the canonical name, with
`hGet` mirroring `http.Header.Get`: the first value of the first entry
with the given (already canonical) name, or `""` when the entry is absent
or has no values. -/

abbrev Header := List (String × List String)

def hGet (name : String) : Header → String
  | [] => ""
  | (n, vs) :: rest =>
    if n = name then
      match vs with
      | [] => ""
      | v :: _ => v
    else hGet name rest

/-! ### String helpers mirroring the Go standard library

Implemented by structural recursion over the character list so that every
definition evaluates inside the kernel. -/

/-- Go `strings.Split(s, sep)` for a one-character separator. -/
def splitOnCharAux (c : Char) : List Char → List Char → List (List Char)
  | [], acc => [acc.reverse]
  | x :: rest, acc =>
    if x = c then acc.reverse :: splitOnCharAux c rest []
    else splitOnCharAux c rest (x :: acc)

def splitOnChar (c : Char) (s : String) : List String :=
  (splitOnCharAux c s.data []).map String.mk

/-- The white-space class of Go `unicode.IsSpace` (the Latin-1 range; the
additional multi-byte Unicode space code points never occur in the header
values the claims are about and are not modelled). -/
def isGoSpace (c : Char) : Bool :=
  c = ' ' ∨ c = '\t' ∨ c = '\n' ∨ c = '\x0b' ∨ c = '\x0c' ∨ c = '\r' ∨
    c = '\x85' ∨ c = '\xa0'

/-- Go `strings.TrimSpace`. -/
def trimChars (s : String) : String :=
  String.mk (((s.data.dropWhile isGoSpace).reverse.dropWhile isGoSpace).reverse)

/-- Go `strings.ToLower` on one character (ASCII range; `ToLower` only
rewrites the letters `A`–`Z` there). -/
def toLowerChar (c : Char) : Char :=
  if 'A' ≤ c ∧ c ≤ 'Z' then Char.ofNat (c.toNat + 32) else c

/-- Go `strings.ToLower`. -/
def lowerStr (s : String) : String :=
  String.mk (s.data.map toLowerChar)

def goPrefixList : List Char → List Char → Bool
  | [], _ => true
  | _ :: _, [] => false
  | a :: as, b :: bs => a = b && goPrefixList as bs

/-- Go `strings.HasPrefix p s` (argument order: the prefix first). -/
def hasPrefixStr (p s : String) : Bool :=
  goPrefixList p.data s.data

/-- Go `strings.Join`. -/
def joinSep (sep : String) : List String → String
  | [] => ""
  | [x] => x
  | x :: y :: xs => x ++ sep ++ joinSep sep (y :: xs)

/-- Go `strconv.Atoi` restricted to its parsing semantics: an optional
sign followed by one or more decimal digits, nothing else.  (The Go
function additionally fails on values outside the machine `int` range;
that range check is irrelevant to the claims and is not modelled.) -/
def digitsToNat? (cs : List Char) : Option Nat :=
  if cs ≠ [] ∧ cs.all (fun c => c.isDigit) then
    some (cs.foldl (fun n c => 10 * n + (c.toNat - 48)) 0)
  else none

def atoi? (s : String) : Option Int :=
  match s.data with
  | '+' :: rest => (digitsToNat? rest).map (fun n => (n : Int))
  | '-' :: rest => (digitsToNat? rest).map (fun n => -(n : Int))
  | rest => (digitsToNat? rest).map (fun n => (n : Int))

/-- Go `strings.SplitN(s, "=", 2)`. -/
def splitN2Eq (s : String) : List String :=
  match splitOnChar '=' s with
  | [] => [s]
  | [x] => [x]
  | x :: y :: xs => [x, joinSep "=" (y :: xs)]

/-! ### Cache policy (`cache.go`) -/

/-- Model of `Entry` from `cache.go`: a cached HTTP response.  Timestamps and the
size are `Int` (nanoseconds / bytes). -/
structure Entry where
  statusCode : Int
  headers : Header
  body : List Nat
  etag : String
  expiresAt : Int
  createdAt : Int
  size : Int
deriving DecidableEq, Repr

/-- The request attributes read by `CacheKey`, `IsCacheable` and the key
extractors (`http.Request.Method`, `URL.Path`, `URL.RawQuery`, `Header`,
`RemoteAddr`). -/
structure Request where
  method : String
  urlPath : String
  rawQuery : String
  header : Header
  remoteAddr : String

/-- Model of `CacheKey` from `cache.go`, parameterised by the hex-encoded MD5
digest function (`md5hex`), which the claims treat as opaque: the key is
the digest of the joined parts. -/
def cacheKey (md5hex : String → String) (r : Request) (varyHeaders : List String) : String :=
  let parts := [r.method, r.urlPath] ++ (if r.rawQuery ≠ "" then [r.rawQuery] else [])
  let parts := parts ++ varyHeaders.filterMap (fun h =>
    let v := hGet h r.header
    if v ≠ "" then some (h ++ ":" ++ v) else none)
  md5hex (joinSep "|" parts)

/-- Model of `IsCacheable` from `cache.go`. -/
def isCacheable (method : String) (statusCode : Int) (headers : Header) : Bool :=
  if method ≠ "GET" ∧ method ≠ "HEAD" then false
  else if 500 ≤ statusCode ∨ (400 ≤ statusCode ∧ statusCode ≠ 404) then false
  else
    let cacheControl := hGet "Cache-Control" headers
    if cacheControl ≠ "" then
      (splitOnChar ',' cacheControl).all fun d =>
        let d2 := trimChars (lowerStr d)
        !(d2 = "no-store" || d2 = "no-cache" || d2 = "private")
    else true

/-- The `max-age` scan inside `ParseTTL`: the loop over comma-separated
directives returns the first directive that, after trimming, starts
(case-insensitively) with `max-age=` and whose value `strconv.Atoi`
accepts; any other directive — including a `max-age=` with an unparsable
value — is skipped. -/
def findMaxAge : List String → Option Int
  | [] => none
  | d :: rest =>
    let t := trimChars d
    if hasPrefixStr "max-age=" (lowerStr t) then
      match splitN2Eq t with
      | [_, v] =>
        match atoi? v with
        | some n => some n
        | none => findMaxAge rest
      | _ => findMaxAge rest
    else findMaxAge rest

/-- Model of `ParseTTL` from `cache.go`, parameterised by `parseTime` (the
`http.ParseTime` HTTP-date parser, opaque to the claims; `some t` is a
successful parse to an absolute `Int`-nanosecond timestamp) and by `now`
(the `time.Now()` reading used by `time.Until`).  Durations are `Int`
nanoseconds; `time.Duration(seconds) * time.Second` is `seconds * 10^9`. -/
def parseTTL (parseTime : String → Option Int) (now : Int) (headers : Header)
    (defaultTTL : Int) : Int :=
  let cacheControl := hGet "Cache-Control" headers
  if cacheControl = "" then defaultTTL
  else
    match findMaxAge (splitOnChar ',' cacheControl) with
    | some n => n * 1000000000
    | none =>
      let expires := hGet "Expires" headers
      if expires ≠ "" then
        match parseTime expires with
        | some t =>
          let ttl := t - now
          if 0 < ttl then ttl else defaultTTL
        | none => defaultTTL
      else defaultTTL

/-! ### Cache store (`memoryCache` in `cache.go`)

The Go store keeps a `map[string]*list.Element` and a doubly linked
`container/list` jointly; the map's keys are exactly the list's item keys.
We model both with a single association list `lru`, ordered front
(most-recently-used) to back (least-recently-used). -/

structure MemoryCache where
  maxSize : Int
  size : Int
  lru : List (String × Entry)
  defaultTTL : Int
deriving DecidableEq, Repr

def newMemoryCache (maxSize : Int) (defaultTTL : Int) : MemoryCache :=
  { maxSize := maxSize, size := 0, lru := [], defaultTTL := defaultTTL }

/-- Lookup through `c.items` (first pair with the key). -/
def lookupKey (k : String) : List (String × Entry) → Option Entry
  | [] => none
  | (k2, e) :: rest => if k2 = k then some e else lookupKey k rest

/-- Removal of the element found for `k` (list part of `deleteElement`
plus the `delete(c.items, key)`). -/
def eraseKey (k : String) : List (String × Entry) → List (String × Entry)
  | [] => []
  | (k2, e) :: rest => if k2 = k then rest else (k2, e) :: eraseKey k rest

/-- The eviction loop of `Set`: `for c.size > c.maxSize && c.lru.Len() > 0`
remove the back element and subtract its size.  The list argument is the
LRU list reversed (back first), so the loop is structural recursion. -/
def evictRev (maxSize : Int) : Int → List (String × Entry) → Int × List (String × Entry)
  | size, [] => (size, [])
  | size, (k, e) :: rest =>
    if maxSize < size then evictRev maxSize (size - e.size) rest
    else (size, (k, e) :: rest)

/-- The LRU list of `Set` just after insertion / `MoveToFront`, before the
eviction loop runs: the (key, entry) pair is at the front, any previous
element for the key is gone, all other elements keep their order. -/
def pushedList (c : MemoryCache) (key : String) (entry : Entry) : List (String × Entry) :=
  match lookupKey key c.lru with
  | some _ => (key, entry) :: eraseKey key c.lru
  | none => (key, entry) :: c.lru

/-- The size accounting of `Set` before the eviction loop: subtract the
replaced entry's size if the key was present, then add the new size. -/
def sizeAfterReplace (c : MemoryCache) (key : String) (entry : Entry) : Int :=
  match lookupKey key c.lru with
  | some old => c.size - old.size + entry.size
  | none => c.size + entry.size

/-- Model of `Set` from `cache.go`: replace-or-insert at the front, adjust the
size accounting, then run the eviction loop. -/
def setOp (c : MemoryCache) (key : String) (entry : Entry) : MemoryCache :=
  let res := evictRev c.maxSize (sizeAfterReplace c key entry) (pushedList c key entry).reverse
  { c with size := res.1, lru := res.2.reverse }

/-- Model of `Get` from `cache.go` at clock reading `now`:
`time.Now().After(expiresAt)` is the strict comparison `expiresAt < now`.
An expired entry is deleted (`deleteElement`); a hit is moved to the
front (`MoveToFront`). -/
def getOp (c : MemoryCache) (now : Int) (key : String) : Option Entry × MemoryCache :=
  match lookupKey key c.lru with
  | none => (none, c)
  | some e =>
    if e.expiresAt < now then
      (none, { c with lru := eraseKey key c.lru, size := c.size - e.size })
    else
      (some e, { c with lru := (key, e) :: eraseKey key c.lru })

/-- Model of `Delete` from `cache.go`. -/
def deleteOp (c : MemoryCache) (key : String) : MemoryCache :=
  match lookupKey key c.lru with
  | none => c
  | some e => { c with lru := eraseKey key c.lru, size := c.size - e.size }

/-- Model of `Clear` from `cache.go`. -/
def clearOp (c : MemoryCache) : MemoryCache :=
  { c with lru := [], size := 0 }

/-- One public mutating-or-reading operation on the store, with the clock
reading a `Get` observes. -/
inductive CacheOp where
  | set (key : String) (entry : Entry)
  | get (now : Int) (key : String)
  | del (key : String)
  | clear
deriving Repr

def applyCacheOp (c : MemoryCache) : CacheOp → MemoryCache
  | .set k e => setOp c k e
  | .get now k => (getOp c now k).2
  | .del k => deleteOp c k
  | .clear => clearOp c

def applyCacheOps (c : MemoryCache) (ops : List CacheOp) : MemoryCache :=
  ops.foldl applyCacheOp c

/-- Sum of the `Size` fields of the entries currently present. -/
def sumSizes (l : List (String × Entry)) : Int :=
  (l.map (fun p => p.2.size)).sum

/-- The size-accounting invariant: the recorded total equals the sum over
present entries. -/
def sizeInv (c : MemoryCache) : Prop :=
  c.size = sumSizes c.lru

/-- The non-negativity assumption of claim C1, per operation: every
entry handed to `Set` has a non-negative `Size` field. -/
def opEntryNonneg : CacheOp → Prop
  | .set _ e => 0 ≤ e.size
  | _ => True

/-! ### Token-bucket rate limiter (`internal/ratelimit`)

`float64` token counts and `time.Time`/`Seconds()` readings are modelled
over `ℚ` (times in seconds).  Within one `Allow` call the Go code reads
`time.Now()` twice (bucket creation and refill); both readings are
modelled as the single parameter `now`. -/

structure Bucket where
  tokens : ℚ
  lastRefill : ℚ
deriving DecidableEq, Repr

structure TokenBucket where
  rate : ℚ
  burst : Int
  buckets : List (String × Bucket)
deriving DecidableEq, Repr

/-- Model of `NewTokenBucket` (the background cleanup goroutine only deletes idle
buckets and is not part of the claims' operations). -/
def newTokenBucket (requestsPerSecond : Int) (burst : Int) : TokenBucket :=
  { rate := (requestsPerSecond : ℚ), burst := burst, buckets := [] }

def lookupB (k : String) : List (String × Bucket) → Option Bucket
  | [] => none
  | (k2, b) :: rest => if k2 = k then some b else lookupB k rest

/-- Go map assignment `tb.buckets[key] = b`. -/
def insertB (k : String) (b : Bucket) : List (String × Bucket) → List (String × Bucket)
  | [] => [(k, b)]
  | (k2, b2) :: rest => if k2 = k then (k, b) :: rest else (k2, b2) :: insertB k b rest

/-- Model of `Allow` from `ratelimit.go`: create the bucket fully charged on first
use, refill `tokens = min(burst, tokens + elapsed * rate)`, update
`lastRefill`, then admit (and decrement) iff `tokens >= 1`. -/
def allowOp (now : ℚ) (key : String) (tb : TokenBucket) : Bool × TokenBucket :=
  let b :=
    match lookupB key tb.buckets with
    | some b => b
    | none => { tokens := (tb.burst : ℚ), lastRefill := now }
  let elapsed := now - b.lastRefill
  let tokens := min ((tb.burst : ℚ)) (b.tokens + elapsed * tb.rate)
  if 1 ≤ tokens then
    (true, { tb with buckets := insertB key { tokens := tokens - 1, lastRefill := now } tb.buckets })
  else
    (false, { tb with buckets := insertB key { tokens := tokens, lastRefill := now } tb.buckets })

/-- Go's conversion `time.Duration(x)` of a `float64`: truncation toward
zero. -/
def truncQ (q : ℚ) : Int :=
  if 0 ≤ q then Int.floor q else Int.ceil q

/-- Model of `Wait` from `ratelimit.go`.  The result is `Int` nanoseconds:
`time.Duration(tokensNeeded/rate*1000) * time.Millisecond` is the
truncated millisecond count times `10^6`.  The Go method takes locks but
performs no writes, hence the pure embedding. -/
def waitOp (key : String) (tb : TokenBucket) : Int :=
  match lookupB key tb.buckets with
  | none => 0
  | some b =>
    if 1 ≤ b.tokens then 0
    else
      let tokensNeeded : ℚ := 1 - b.tokens
      truncQ (tokensNeeded / tb.rate * 1000) * 1000000

/-- Iteration of `Allow` `n` times at a fixed clock reading, collecting the
results in order. -/
def repeatAllow (now : ℚ) (key : String) : Nat → TokenBucket → List Bool × TokenBucket
  | 0, tb => ([], tb)
  | n + 1, tb =>
    let r := allowOp now key tb
    let rest := repeatAllow now key n r.2
    (r.1 :: rest.1, rest.2)

/-- A limiter call: `Allow` mutates the bucket map, `Wait` reads it. -/
inductive LimOp where
  | allow (now : ℚ) (key : String)
  | wait (key : String)

def applyLimOp (tb : TokenBucket) : LimOp → TokenBucket
  | .allow now k => (allowOp now k tb).2
  | .wait _ => tb

def applyLimOps (tb : TokenBucket) (ops : List LimOp) : TokenBucket :=
  ops.foldl applyLimOp tb

/-- The monotonic-clock assumption: successive `Allow` readings never go
backwards, starting from a lower bound `t`. -/
def timesMono : ℚ → List LimOp → Prop
  | _, [] => True
  | t, .allow now _ :: rest => t ≤ now ∧ timesMono now rest
  | t, .wait _ :: rest => timesMono t rest

/-! ### Key extractors (`ratelimit.go`) -/

/-- The `X-Forwarded-For` scan in `IPKeyExtractor`: the bytes strictly
before the first comma, or the whole string when it has no comma.  No
trimming is performed. -/
def beforeFirstComma (s : String) : String :=
  String.mk (s.data.takeWhile (fun c => c ≠ ','))

def lastIndexOf (c : Char) (l : List Char) : Option Nat :=
  match l.reverse.findIdx? (fun x => x = c) with
  | some j => some (l.length - 1 - j)
  | none => none

/-- Go `net.SplitHostPort`: `some (host, port)` on success, `none` where
the Go function returns an error (missing port, stray brackets, too many
colons). -/
def splitHostPort (hostPort : String) : Option (String × String) :=
  let l := hostPort.data
  match lastIndexOf ':' l with
  | none => none
  | some i =>
    if l.head? = some '[' then
      match l.findIdx? (fun x => x = ']') with
      | none => none
      | some endB =>
        if endB + 1 = l.length then none
        else if endB + 1 = i then
          if (l.drop 1).contains '[' ∨ (l.drop (endB + 1)).contains ']' then none
          else some (String.mk ((l.drop 1).take (endB - 1)), String.mk (l.drop (i + 1)))
        else none
    else
      if (l.take i).contains ':' then none
      else if l.contains '[' ∨ l.contains ']' then none
      else some (String.mk (l.take i), String.mk (l.drop (i + 1)))

/-- Model of `IPKeyExtractor` from `ratelimit.go`. -/
def ipKeyExtractor (r : Request) : String :=
  let xff := hGet "X-Forwarded-For" r.header
  if xff ≠ "" then beforeFirstComma xff
  else
    let xri := hGet "X-Real-IP" r.header
    if xri ≠ "" then xri
    else
      match splitHostPort r.remoteAddr with
      | some hp => hp.1
      | none => r.remoteAddr

/-- Model of `APIKeyExtractor` from `ratelimit.go`. -/
def apiKeyExtractor (headerName : String) (r : Request) : String :=
  let key := hGet headerName r.header
  if key = "" then ipKeyExtractor r
  else "apikey:" ++ key

/-- A concrete 200-response entry with the given expiry and size, used to
instantiate universally quantified statements. -/
def mkEntry (expiresAt size : Int) : Entry :=
  { statusCode := 200, headers := [], body := [], etag := "",
    expiresAt := expiresAt, createdAt := 0, size := size }

/-! ### Helper lemmas -/

theorem hGet_absent (hn : String) (l : Header) (h : hn ∉ l.map Prod.fst) :
    hGet hn l = "" := by
  induction l with
  | nil => rfl
  | cons p rest ih =>
    simp only [List.map_cons, List.mem_cons] at h
    push_neg at h
    cases p with
    | mk n vs =>
      simp only [hGet]
      rw [if_neg]
      · exact ih h.2
      · intro he; exact h.1 he.symm

theorem hGet_cons_same_empty (hn h : String) (l : Header) (habs : hn ∉ l.map Prod.fst) :
    hGet h ((hn, [""]) :: l) = hGet h l := by
  simp only [hGet]
  split
  · next he => rw [he] at habs; rw [hGet_absent h l habs]
  · rfl

theorem filterMap_congr_mem {α β : Type} (l : List α) (f g : α → Option β)
    (h : ∀ a ∈ l, f a = g a) : l.filterMap f = l.filterMap g := by
  induction l with
  | nil => rfl
  | cons a rest ih =>
    simp only [List.filterMap_cons]
    rw [h a (List.mem_cons_self a rest), ih (fun x hx => h x (List.mem_cons_of_mem a hx))]

/-! ### Claim theorems -/

/-- Claim C8 (confirmed): `IsCacheable` returns true exactly when the
method is GET or HEAD, the status is neither a 5xx nor a non-404 4xx, and
no comma-separated `Cache-Control` directive equals (after lowercasing
and trimming) `no-store`, `no-cache` or `private`.  When the header is
absent `hGet` yields `""`, whose single empty directive matches none of
the three, so the directive condition holds vacuously, as in the code. -/
theorem c8_isCacheable_characterization (method : String) (statusCode : Int) (headers : Header) :
    isCacheable method statusCode headers = true ↔
      ((method = "GET" ∨ method = "HEAD") ∧
        ¬(500 ≤ statusCode ∨ (400 ≤ statusCode ∧ statusCode ≠ 404)) ∧
        ∀ d ∈ splitOnChar ',' (hGet "Cache-Control" headers),
          ¬(trimChars (lowerStr d) = "no-store" ∨ trimChars (lowerStr d) = "no-cache" ∨
            trimChars (lowerStr d) = "private")) := by
  simp only [isCacheable]
  split_ifs with h1 h2 h3
  · simp only [Bool.false_eq_true, false_iff]
    rintro ⟨hm, -, -⟩
    rcases hm with h | h
    · exact h1.1 h
    · exact h1.2 h
  · simp only [Bool.false_eq_true, false_iff]
    rintro ⟨-, hs, -⟩
    exact hs h2
  · rw [List.all_eq_true]
    constructor
    · intro hall
      refine ⟨?_, h2, ?_⟩
      · rcases not_and_or.mp h1 with h | h
        · exact Or.inl (not_not.mp h)
        · exact Or.inr (not_not.mp h)
      · intro d hd
        simpa [and_assoc] using hall d hd
    · rintro ⟨-, -, hall⟩ d hd
      simpa [and_assoc] using hall d hd
  · simp only [true_iff]
    push_neg at h3
    refine ⟨?_, h2, ?_⟩
    · rcases not_and_or.mp h1 with h | h
      · exact Or.inl (not_not.mp h)
      · exact Or.inr (not_not.mp h)
    · rw [h3]
      intro d hd
      have hsplit : splitOnChar ',' "" = [""] := rfl
      rw [hsplit] at hd
      simp only [List.mem_singleton] at hd
      subst hd
      decide

/-- Witness for C8 at a concrete input. -/
theorem c8_isCacheable_characterization_witness :
    isCacheable "GET" 200 [] = true :=
  (c8_isCacheable_characterization "GET" 200 []).mpr (by refine ⟨Or.inl rfl, by decide, ?_⟩; decide)

/-- Claim C10 (confirmed): `CacheKey` produces the same key whether a
configured vary header is absent or present with the empty-string value,
because `Header.Get` returns `""` in both cases and `CacheKey` skips
empty vary values. -/
theorem c10_cacheKey_empty_vary_alias (md5hex : String → String)
    (method urlPath rawQuery remoteAddr : String) (hdrs : Header)
    (vary : List String) (hn : String)
    (habs : hn ∉ hdrs.map Prod.fst) :
    cacheKey md5hex
      { method := method, urlPath := urlPath, rawQuery := rawQuery,
        header := hdrs, remoteAddr := remoteAddr } vary =
    cacheKey md5hex
      { method := method, urlPath := urlPath, rawQuery := rawQuery,
        header := (hn, [""]) :: hdrs, remoteAddr := remoteAddr } vary := by
  simp only [cacheKey]
  congr 2
  congr 1
  apply filterMap_congr_mem
  intro h hmem
  rw [hGet_cons_same_empty hn h hdrs habs]

/-- Witness for C10: a GET with vary header `Accept` absent vs present
with the empty value hashes identically (`md5hex` instantiated with the
identity, which the theorem allows since it holds for every digest
function). -/
theorem c10_cacheKey_empty_vary_alias_witness :
    cacheKey (fun s => s)
      { method := "GET", urlPath := "/a", rawQuery := "", header := [],
        remoteAddr := "" } ["Accept"] =
    cacheKey (fun s => s)
      { method := "GET", urlPath := "/a", rawQuery := "",
        header := [("Accept", [""])], remoteAddr := "" } ["Accept"] :=
  c10_cacheKey_empty_vary_alias (fun s => s) "GET" "/a" "" "" [] ["Accept"] "Accept"
    (by decide)

/-! ### Rate-limiter lemmas -/

theorem lookupB_insertB_self (k : String) (b : Bucket) (l : List (String × Bucket)) :
    lookupB k (insertB k b l) = some b := by
  induction l with
  | nil => simp [insertB, lookupB]
  | cons p rest ih =>
    cases p with
    | mk k3 b3 =>
      simp only [insertB]
      split
      · next he => simp [lookupB]
      · next he => simp only [lookupB, if_neg he, ih]

theorem lookupB_insertB_ne (k k2 : String) (b : Bucket) (l : List (String × Bucket))
    (h : k2 ≠ k) : lookupB k2 (insertB k b l) = lookupB k2 l := by
  induction l with
  | nil =>
    simp only [insertB, lookupB]
    rw [if_neg (Ne.symm h)]
  | cons p rest ih =>
    cases p with
    | mk k3 b3 =>
      simp only [insertB]
      split
      · next he =>
        subst he
        simp only [lookupB]
        rw [if_neg (Ne.symm h), if_neg (Ne.symm h)]
      · next he =>
        simp only [lookupB, ih]

theorem allowOp_rate (now : ℚ) (k : String) (tb : TokenBucket) :
    (allowOp now k tb).2.rate = tb.rate := by
  simp only [allowOp]
  split <;> rfl

theorem allowOp_burst (now : ℚ) (k : String) (tb : TokenBucket) :
    (allowOp now k tb).2.burst = tb.burst := by
  simp only [allowOp]
  split <;> rfl

theorem allowOp_lookup_ne (now : ℚ) (key k2 : String) (tb : TokenBucket) (h : k2 ≠ key) :
    lookupB k2 (allowOp now key tb).2.buckets = lookupB k2 tb.buckets := by
  simp only [allowOp]
  split <;> exact lookupB_insertB_ne key k2 _ tb.buckets h

theorem refill_bounds (burst tokens lastRefill rate now : ℚ)
    (hrate : 0 ≤ rate) (hburst : 0 ≤ burst) (ht0 : 0 ≤ tokens) (hlr : lastRefill ≤ now) :
    0 ≤ min burst (tokens + (now - lastRefill) * rate) ∧
    min burst (tokens + (now - lastRefill) * rate) ≤ burst :=
  ⟨le_min hburst (add_nonneg ht0 (mul_nonneg (sub_nonneg.mpr hlr) hrate)),
    min_le_left _ _⟩

/-- One `Allow` call preserves the token-range invariant, advancing the
clock bound from `t` to `now`. -/
theorem allowOp_inv (tb : TokenBucket) (t now : ℚ) (key : String)
    (hrate : 0 < tb.rate) (hburst : 0 ≤ (tb.burst : ℚ)) (ht : t ≤ now)
    (hinv : ∀ k b, lookupB k tb.buckets = some b →
      0 ≤ b.tokens ∧ b.tokens ≤ (tb.burst : ℚ) ∧ b.lastRefill ≤ t) :
    ∀ k b, lookupB k (allowOp now key tb).2.buckets = some b →
      0 ≤ b.tokens ∧ b.tokens ≤ (tb.burst : ℚ) ∧ b.lastRefill ≤ now := by
  intro k b hkb
  by_cases hk : k = key
  · subst hk
    have hb0 : ∀ b0 : Bucket,
        (match lookupB k tb.buckets with
          | some b0 => b0
          | none => { tokens := (tb.burst : ℚ), lastRefill := now }) = b0 →
        0 ≤ b0.tokens ∧ b0.tokens ≤ (tb.burst : ℚ) ∧ b0.lastRefill ≤ now := by
      intro b0 hb0
      rcases hcase : lookupB k tb.buckets with _ | bfound
      · rw [hcase] at hb0
        subst hb0
        exact ⟨hburst, le_refl _, le_refl _⟩
      · rw [hcase] at hb0
        subst hb0
        obtain ⟨h1, h2, h3⟩ := hinv k bfound hcase
        exact ⟨h1, h2, le_trans h3 ht⟩
    simp only [allowOp] at hkb
    obtain ⟨hb1, hb2, hb3⟩ := hb0 _ rfl
    obtain ⟨hm0, hmb⟩ :=
      refill_bounds (tb.burst : ℚ) _ _ tb.rate now hrate.le hburst hb1 hb3
    split at hkb
    · next hadm =>
      rw [lookupB_insertB_self] at hkb
      cases hkb
      refine ⟨?_, ?_, le_refl _⟩
      · dsimp only
        linarith
      · dsimp only
        linarith
    · next hden =>
      rw [lookupB_insertB_self] at hkb
      cases hkb
      exact ⟨hm0, hmb, le_refl _⟩
  · rw [allowOp_lookup_ne now key k tb hk] at hkb
    obtain ⟨h1, h2, h3⟩ := hinv k b hkb
    exact ⟨h1, h2, le_trans h3 ht⟩

theorem applyLimOps_rate (ops : List LimOp) (tb : TokenBucket) :
    (applyLimOps tb ops).rate = tb.rate := by
  induction ops generalizing tb with
  | nil => rfl
  | cons op rest ih =>
    cases op with
    | allow now k =>
      simp only [applyLimOps, List.foldl_cons, applyLimOp] at *
      rw [ih, allowOp_rate]
    | wait k => simpa [applyLimOps, applyLimOp] using ih tb

theorem applyLimOps_burst (ops : List LimOp) (tb : TokenBucket) :
    (applyLimOps tb ops).burst = tb.burst := by
  induction ops generalizing tb with
  | nil => rfl
  | cons op rest ih =>
    cases op with
    | allow now k =>
      simp only [applyLimOps, List.foldl_cons, applyLimOp] at *
      rw [ih, allowOp_burst]
    | wait k => simpa [applyLimOps, applyLimOp] using ih tb

theorem applyLimOps_inv (ops : List LimOp) (tb : TokenBucket) (t : ℚ)
    (hrate : 0 < tb.rate) (hburst : 0 ≤ (tb.burst : ℚ)) (hm : timesMono t ops)
    (hinv : ∀ k b, lookupB k tb.buckets = some b →
      0 ≤ b.tokens ∧ b.tokens ≤ (tb.burst : ℚ) ∧ b.lastRefill ≤ t) :
    ∃ t2, ∀ k b, lookupB k (applyLimOps tb ops).buckets = some b →
      0 ≤ b.tokens ∧ b.tokens ≤ (tb.burst : ℚ) ∧ b.lastRefill ≤ t2 := by
  induction ops generalizing tb t with
  | nil => exact ⟨t, by simpa [applyLimOps] using hinv⟩
  | cons op rest ih =>
    cases op with
    | allow now k =>
      obtain ⟨h1, h2⟩ := hm
      have hstep := allowOp_inv tb t now k hrate hburst h1 hinv
      have hr2 : 0 < (allowOp now k tb).2.rate := by rw [allowOp_rate]; exact hrate
      have hb2 : 0 ≤ ((allowOp now k tb).2.burst : ℚ) := by rw [allowOp_burst]; exact hburst
      obtain ⟨t2, hres⟩ := ih ((allowOp now k tb).2) now hr2 hb2 h2
        (by rw [allowOp_burst]; exact hstep)
      refine ⟨t2, ?_⟩
      intro k2 b2 hk2
      have : applyLimOps tb (LimOp.allow now k :: rest) =
          applyLimOps ((allowOp now k tb).2) rest := by
        simp [applyLimOps, applyLimOp]
      rw [this] at hk2
      have := hres k2 b2 hk2
      rwa [allowOp_burst] at this
    | wait k =>
      have : applyLimOps tb (LimOp.wait k :: rest) = applyLimOps tb rest := by
        simp [applyLimOps, applyLimOp]
      rw [this]
      exact ih tb t hrate hburst hm hinv

/-- Claim C4 (confirmed): `Allow` semantics.  (i) On a key with an
existing bucket, the refilled count is `min(burst, tokens + elapsed*rate)`
with `elapsed = now - lastRefill`; the call admits iff that count is at
least 1, and stores the count (minus one on admission) with
`lastRefill = now`.  (ii) On first use the bucket is created fully
charged, so the refilled count is exactly `burst`.  (iii) A call for one
key never touches another key's bucket.  (iv) With rate 10, burst 20 and
no time elapsing, 20 consecutive `Allow("k")` return true and the 21st
returns false. -/
theorem c4_allow_semantics :
    (∀ (now : ℚ) (key : String) (tb : TokenBucket) (b : Bucket),
      lookupB key tb.buckets = some b →
      (((allowOp now key tb).1 = true ↔
        1 ≤ min ((tb.burst : ℚ)) (b.tokens + (now - b.lastRefill) * tb.rate)) ∧
      (allowOp now key tb).2.buckets =
        insertB key
          { tokens :=
              if 1 ≤ min ((tb.burst : ℚ)) (b.tokens + (now - b.lastRefill) * tb.rate) then
                min ((tb.burst : ℚ)) (b.tokens + (now - b.lastRefill) * tb.rate) - 1
              else min ((tb.burst : ℚ)) (b.tokens + (now - b.lastRefill) * tb.rate),
            lastRefill := now } tb.buckets)) ∧
    (∀ (now : ℚ) (key : String) (tb : TokenBucket),
      lookupB key tb.buckets = none →
      (((allowOp now key tb).1 = true ↔ 1 ≤ (tb.burst : ℚ)) ∧
      (allowOp now key tb).2.buckets =
        insertB key
          { tokens := if 1 ≤ (tb.burst : ℚ) then (tb.burst : ℚ) - 1 else (tb.burst : ℚ),
            lastRefill := now } tb.buckets)) ∧
    (∀ (now : ℚ) (key k2 : String) (tb : TokenBucket), k2 ≠ key →
      lookupB k2 (allowOp now key tb).2.buckets = lookupB k2 tb.buckets) ∧
    (repeatAllow 0 "k" 21 (newTokenBucket 10 20)).1 = List.replicate 20 true ++ [false] := by
  refine ⟨?_, ?_, ?_, ?_⟩
  · intro now key tb b h
    simp only [allowOp, h]
    split_ifs with hc
    · simp [hc]
    · simp [hc]
  · intro now key tb h
    have hz : min ((tb.burst : ℚ)) ((tb.burst : ℚ) + (now - now) * tb.rate) = (tb.burst : ℚ) := by
      simp
    simp only [allowOp, h]
    rw [hz]
    split_ifs with hc
    · simp [hc]
    · simp [hc]
  · intro now key k2 tb h
    exact allowOp_lookup_ne now key k2 tb h
  · norm_num [repeatAllow, allowOp, newTokenBucket, lookupB, insertB, min_def, List.replicate]

/-- Witness for C4: a limiter with burst 2, one prior call for key `"k"`
at time 0; a second call at time 0 has an existing bucket with one token
left and is admitted, while key `"j"` remains untouched. -/
theorem c4_allow_semantics_witness :
    ((allowOp 0 "k" ((allowOp 0 "k" (newTokenBucket 1 2)).2)).1 = true ↔
      1 ≤ min (((2 : Int) : ℚ))
        ((1 : ℚ) + ((0 : ℚ) - (0 : ℚ)) * ((1 : Int) : ℚ))) ∧
    lookupB "j" ((allowOp 0 "k" (newTokenBucket 1 2)).2).buckets =
      lookupB "j" (newTokenBucket 1 2).buckets := by
  constructor
  · have hlk : lookupB "k" ((allowOp 0 "k" (newTokenBucket 1 2)).2).buckets =
        some { tokens := (1 : ℚ), lastRefill := 0 } := by
      norm_num [allowOp, newTokenBucket, lookupB, insertB, min_def]
    have h := (c4_allow_semantics.1 0 "k" ((allowOp 0 "k" (newTokenBucket 1 2)).2)
      { tokens := (1 : ℚ), lastRefill := 0 } hlk).1
    have hrw : ((allowOp 0 "k" (newTokenBucket 1 2)).2).burst = (2 : Int) := by
      norm_num [allowOp, newTokenBucket, lookupB, insertB, min_def]
    have hrw2 : ((allowOp 0 "k" (newTokenBucket 1 2)).2).rate = ((1 : Int) : ℚ) := by
      norm_num [allowOp, newTokenBucket, lookupB, insertB, min_def]
    rw [hrw, hrw2] at h
    exact h
  · exact c4_allow_semantics.2.2.1 0 "k" "j" (newTokenBucket 1 2) (by decide)

/-- Claim C5 (confirmed): starting from a fresh limiter with positive
rate and burst, under any sequence of `Allow`/`Wait` calls whose clock
readings never go backwards, every bucket present afterwards satisfies
`0 ≤ tokens ≤ burst`. -/
theorem c5_token_range_invariant (requestsPerSecond burst : Int) (t0 : ℚ) (ops : List LimOp)
    (hr : 0 < requestsPerSecond) (hb : 0 < burst) (hm : timesMono t0 ops) :
    ∀ k b, lookupB k (applyLimOps (newTokenBucket requestsPerSecond burst) ops).buckets = some b →
      0 ≤ b.tokens ∧ b.tokens ≤ (burst : ℚ) := by
  have hrate : 0 < (newTokenBucket requestsPerSecond burst).rate := by
    simp only [newTokenBucket]
    exact_mod_cast hr
  have hburst : 0 ≤ ((newTokenBucket requestsPerSecond burst).burst : ℚ) := by
    simp only [newTokenBucket]
    exact_mod_cast hb.le
  obtain ⟨t2, h⟩ := applyLimOps_inv ops (newTokenBucket requestsPerSecond burst) t0
    hrate hburst hm (by intro k b hkb; simp [newTokenBucket, lookupB] at hkb)
  intro k b hkb
  obtain ⟨h1, h2, -⟩ := h k b hkb
  refine ⟨h1, ?_⟩
  simpa [newTokenBucket] using h2

/-- Witness for C5: one admission at time 0 on a rate-1, burst-1 limiter
leaves the key's bucket at exactly 0 tokens, inside the required range. -/
theorem c5_token_range_invariant_witness :
    lookupB "k" (applyLimOps (newTokenBucket 1 1) [LimOp.allow 0 "k"]).buckets =
      some { tokens := 0, lastRefill := 0 } ∧
    (0 ≤ (0 : ℚ) ∧ (0 : ℚ) ≤ ((1 : Int) : ℚ)) := by
  have hlk : lookupB "k" (applyLimOps (newTokenBucket 1 1) [LimOp.allow 0 "k"]).buckets =
      some { tokens := 0, lastRefill := 0 } := by
    norm_num [applyLimOps, applyLimOp, allowOp, newTokenBucket, lookupB, insertB, min_def]
  have h := c5_token_range_invariant 1 1 0 [LimOp.allow 0 "k"] (by decide) (by decide)
    (by exact ⟨le_refl 0, trivial⟩) "k" { tokens := 0, lastRefill := 0 } hlk
  exact ⟨hlk, h⟩

/-- Claim C6, amended (corrected): `Wait` returns zero when the key has
no bucket or its stored token count is at least 1; otherwise it returns
`(1 - tokens)/rate` seconds converted to milliseconds and truncated to a
whole number of milliseconds — a value that is non-negative (zero whenever
the remaining wait is under one millisecond, which refutes the claimed
strict positivity) and at most `1/rate` seconds; the call leaves the
limiter state unchanged.  The original claim's exact value
`(1 - tokens)/rate` seconds and its positivity both fail because of the
millisecond truncation (see the counterexample). -/
theorem c6_wait_amended (tb : TokenBucket) (key : String) :
    (lookupB key tb.buckets = none → waitOp key tb = 0) ∧
    (∀ b, lookupB key tb.buckets = some b → 1 ≤ b.tokens → waitOp key tb = 0) ∧
    (∀ b, lookupB key tb.buckets = some b → ¬(1 ≤ b.tokens) →
      waitOp key tb = truncQ ((1 - b.tokens) / tb.rate * 1000) * 1000000 ∧
      (0 < tb.rate → 0 ≤ b.tokens →
        0 ≤ waitOp key tb ∧ (waitOp key tb : ℚ) ≤ 1000000000 / tb.rate)) ∧
    (∀ (tb2 : TokenBucket) (k2 : String), applyLimOp tb2 (LimOp.wait k2) = tb2) := by
  refine ⟨?_, ?_, ?_, fun tb2 k2 => rfl⟩
  · intro h
    simp [waitOp, h]
  · intro b hb h1
    simp [waitOp, hb, h1]
  · intro b hb h1
    have heq : waitOp key tb = truncQ ((1 - b.tokens) / tb.rate * 1000) * 1000000 := by
      simp [waitOp, hb, h1]
    refine ⟨heq, ?_⟩
    intro hrate htok
    have hx : 0 ≤ (1 - b.tokens) / tb.rate * 1000 := by
      have : 0 ≤ 1 - b.tokens := by linarith [lt_of_not_le h1]
      positivity
    have htr : truncQ ((1 - b.tokens) / tb.rate * 1000) =
        Int.floor ((1 - b.tokens) / tb.rate * 1000) := by
      simp [truncQ, hx]
    constructor
    · rw [heq, htr]
      have : (0 : Int) ≤ Int.floor ((1 - b.tokens) / tb.rate * 1000) :=
        Int.floor_nonneg.mpr hx
      positivity
    · rw [heq, htr]
      push_cast
      have hfle : (Int.floor ((1 - b.tokens) / tb.rate * 1000) : ℚ) ≤
          (1 - b.tokens) / tb.rate * 1000 := Int.floor_le _
      have hstep : (1 - b.tokens) / tb.rate * 1000 * 1000000 ≤ 1000000000 / tb.rate := by
        rw [div_mul_eq_mul_div, div_mul_eq_mul_div, div_le_div_iff₀ hrate hrate]
        have h1le : 1 - b.tokens ≤ 1 := by linarith
        nlinarith [hrate.le]
      calc (Int.floor ((1 - b.tokens) / tb.rate * 1000) : ℚ) * 1000000
          ≤ (1 - b.tokens) / tb.rate * 1000 * 1000000 := by
            exact mul_le_mul_of_nonneg_right hfle (by norm_num)
        _ ≤ 1000000000 / tb.rate := hstep

/-- Witness for C6 (amended): on a rate-10 burst-1 limiter after one
admission at time 0, the stored bucket has 0 tokens and `Wait` returns
100ms = `10^8` nanoseconds, non-negative and at most `1/10` second. -/
theorem c6_wait_amended_witness :
    waitOp "k" ((allowOp 0 "k" (newTokenBucket 10 1)).2) =
      truncQ ((1 - (0 : ℚ)) / ((allowOp 0 "k" (newTokenBucket 10 1)).2).rate * 1000) * 1000000 ∧
    0 ≤ waitOp "k" ((allowOp 0 "k" (newTokenBucket 10 1)).2) ∧
    (waitOp "k" ((allowOp 0 "k" (newTokenBucket 10 1)).2) : ℚ) ≤
      1000000000 / ((allowOp 0 "k" (newTokenBucket 10 1)).2).rate := by
  have hlk : lookupB "k" ((allowOp 0 "k" (newTokenBucket 10 1)).2).buckets =
      some { tokens := (0 : ℚ), lastRefill := 0 } := by
    norm_num [allowOp, newTokenBucket, lookupB, insertB, min_def]
  have h := (c6_wait_amended ((allowOp 0 "k" (newTokenBucket 10 1)).2) "k").2.2.1
    { tokens := (0 : ℚ), lastRefill := 0 } hlk (by norm_num)
  have hrate : 0 < ((allowOp 0 "k" (newTokenBucket 10 1)).2).rate := by
    norm_num [allowOp, newTokenBucket, lookupB, insertB, min_def]
  exact ⟨h.1, (h.2 hrate (le_refl 0)).1, (h.2 hrate (le_refl 0)).2⟩

/-- Counterexample to C6 as stated: with rate 2000 and burst 1, after one
admission at time 0 the key's bucket holds 0 tokens (< 1), so the claim
demands a strictly positive wait of `1/2000` s; the code truncates
`0.5ms` to zero milliseconds and `Wait` returns 0. -/
theorem c6_counterexample :
    waitOp "k" ((allowOp 0 "k" (newTokenBucket 2000 1)).2) = 0 ∧
    lookupB "k" ((allowOp 0 "k" (newTokenBucket 2000 1)).2).buckets =
      some { tokens := 0, lastRefill := 0 } := by
  constructor
  · norm_num [waitOp, allowOp, newTokenBucket, lookupB, insertB, min_def, truncQ]
  · norm_num [allowOp, newTokenBucket, lookupB, insertB, min_def]

/-- Claim C9, amended (corrected): `IPKeyExtractor` prefers the text of
`X-Forwarded-For` strictly before its first comma taken verbatim — NOT
trimmed of whitespace (the original claim's "trimmed" is refuted by the
counterexample); else a non-empty `X-Real-IP`; else the host portion of
the peer address, or the whole peer address when `net.SplitHostPort`
fails on it (e.g. no port).  The claim's two concrete examples hold. -/
theorem c9_ipKeyExtractor_amended (r : Request) :
    (hGet "X-Forwarded-For" r.header ≠ "" →
      ipKeyExtractor r = beforeFirstComma (hGet "X-Forwarded-For" r.header)) ∧
    (hGet "X-Forwarded-For" r.header = "" → hGet "X-Real-IP" r.header ≠ "" →
      ipKeyExtractor r = hGet "X-Real-IP" r.header) ∧
    (hGet "X-Forwarded-For" r.header = "" → hGet "X-Real-IP" r.header = "" →
      (∀ host port, splitHostPort r.remoteAddr = some (host, port) →
        ipKeyExtractor r = host) ∧
      (splitHostPort r.remoteAddr = none → ipKeyExtractor r = r.remoteAddr)) ∧
    ipKeyExtractor
      { method := "GET", urlPath := "/", rawQuery := "",
        header := [("X-Forwarded-For", ["203.0.113.1, 198.51.100.1"])],
        remoteAddr := "10.0.0.1:80" } = "203.0.113.1" ∧
    ipKeyExtractor
      { method := "GET", urlPath := "/", rawQuery := "", header := [],
        remoteAddr := "192.168.1.1:1234" } = "192.168.1.1" := by
  refine ⟨?_, ?_, ?_, by decide, by decide⟩
  · intro h
    simp [ipKeyExtractor, h]
  · intro h1 h2
    simp [ipKeyExtractor, h1, h2]
  · intro h1 h2
    constructor
    · intro host port hsp
      simp [ipKeyExtractor, h1, h2, hsp]
    · intro hsp
      simp [ipKeyExtractor, h1, h2, hsp]

/-- Witness for C9 (amended), exercising each hypothesis-guarded branch
at concrete requests. -/
theorem c9_ipKeyExtractor_amended_witness :
    ipKeyExtractor
      { method := "GET", urlPath := "/", rawQuery := "",
        header := [("X-Forwarded-For", ["7.7.7.7"])], remoteAddr := "8.8.8.8:1" } =
      beforeFirstComma "7.7.7.7" ∧
    ipKeyExtractor
      { method := "GET", urlPath := "/", rawQuery := "",
        header := [("X-Real-IP", ["5.5.5.5"])], remoteAddr := "8.8.8.8:1" } = "5.5.5.5" ∧
    ipKeyExtractor
      { method := "GET", urlPath := "/", rawQuery := "", header := [],
        remoteAddr := "8.8.8.8:1" } = "8.8.8.8" ∧
    ipKeyExtractor
      { method := "GET", urlPath := "/", rawQuery := "", header := [],
        remoteAddr := "noport" } = "noport" := by
  refine ⟨?_, ?_, ?_, ?_⟩
  · exact (c9_ipKeyExtractor_amended _).1 (by decide)
  · exact (c9_ipKeyExtractor_amended _).2.1 (by decide) (by decide)
  · exact ((c9_ipKeyExtractor_amended _).2.2.1 (by decide) (by decide)).1
      "8.8.8.8" "1" (by decide)
  · exact ((c9_ipKeyExtractor_amended _).2.2.1 (by decide) (by decide)).2 (by decide)

/-- Counterexample to C9 as stated: with `X-Forwarded-For`
`" 10.0.0.1 , 2.2.2.2"`, the first address trimmed of whitespace would be
`"10.0.0.1"`, but the code returns the untrimmed slice `" 10.0.0.1 "`. -/
theorem c9_counterexample :
    ipKeyExtractor
      { method := "GET", urlPath := "/", rawQuery := "",
        header := [("X-Forwarded-For", [" 10.0.0.1 , 2.2.2.2"])],
        remoteAddr := "192.0.2.7:99" } = " 10.0.0.1 " ∧
    (" 10.0.0.1 " : String) ≠ "10.0.0.1" := by
  constructor
  · decide
  · decide

/-- Claim C7, amended (corrected): `ParseTTL` behaves as follows.  If the
`Cache-Control` header is absent or empty, the result is the default TTL
and the `Expires` header is never consulted (the original claim let
`Expires` apply in that case).  Otherwise, if some comma-separated
directive is a `max-age=<n>` whose value parses as an integer —
including a negative one, which the original claim excluded — the result
is `n` seconds; an unparsable value falls through.  Otherwise, a present
`Expires` that parses to a future time yields the remaining duration,
and in every remaining case the result is the default TTL.  `max-age`
takes precedence over `Expires`. -/
theorem c7_parseTTL_amended (pt : String → Option Int) (now : Int) (headers : Header)
    (d : Int) :
    (hGet "Cache-Control" headers = "" → parseTTL pt now headers d = d) ∧
    (∀ n, hGet "Cache-Control" headers ≠ "" →
      findMaxAge (splitOnChar ',' (hGet "Cache-Control" headers)) = some n →
      parseTTL pt now headers d = n * 1000000000) ∧
    (hGet "Cache-Control" headers ≠ "" →
      findMaxAge (splitOnChar ',' (hGet "Cache-Control" headers)) = none →
      ((hGet "Expires" headers = "" → parseTTL pt now headers d = d) ∧
       (∀ t, hGet "Expires" headers ≠ "" → pt (hGet "Expires" headers) = some t →
         (0 < t - now → parseTTL pt now headers d = t - now) ∧
         (t - now ≤ 0 → parseTTL pt now headers d = d)) ∧
       (hGet "Expires" headers ≠ "" → pt (hGet "Expires" headers) = none →
         parseTTL pt now headers d = d))) ∧
    parseTTL pt now [("Cache-Control", ["max-age=60"])] d = 60 * 1000000000 ∧
    parseTTL pt now [("Cache-Control", ["public, max-age=120"])] d = 120 * 1000000000 ∧
    parseTTL pt now [] d = d := by
  refine ⟨?_, ?_, ?_, ?_, ?_, rfl⟩
  · intro h
    simp [parseTTL, h]
  · intro n h hma
    simp [parseTTL, h, hma]
  · intro h hma
    refine ⟨?_, ?_, ?_⟩
    · intro he
      simp [parseTTL, h, hma, he]
    · intro t he hpt
      constructor
      · intro hpos
        simp [parseTTL, h, hma, he, hpt, hpos]
      · intro hneg
        simp only [parseTTL, h, hma, he, hpt]
        simp [h, he]
        omega
    · intro he hpt
      simp [parseTTL, h, hma, he, hpt]
  · have hma : findMaxAge (splitOnChar ',' (hGet "Cache-Control"
        [("Cache-Control", ["max-age=60"])])) = some 60 := by decide
    have hne : hGet "Cache-Control" [("Cache-Control", ["max-age=60"])] ≠ "" := by decide
    simp [parseTTL, hma, hne]
  · have hma : findMaxAge (splitOnChar ',' (hGet "Cache-Control"
        [("Cache-Control", ["public, max-age=120"])])) = some 120 := by decide
    have hne : hGet "Cache-Control" [("Cache-Control", ["public, max-age=120"])] ≠ "" := by
      decide
    simp [parseTTL, hma, hne]

/-- Witness for C7 (amended), exercising the max-age, expires-future,
expires-past and no-header branches at concrete inputs. -/
theorem c7_parseTTL_amended_witness :
    parseTTL (fun _ => none) 0 [("Cache-Control", ["max-age=60"])] 7 = 60 * 1000000000 ∧
    parseTTL (fun _ => some 5) 0
      [("Cache-Control", ["public"]), ("Expires", ["later"])] 7 = 5 ∧
    parseTTL (fun _ => some (-3)) 0
      [("Cache-Control", ["public"]), ("Expires", ["earlier"])] 7 = 7 ∧
    parseTTL (fun _ => none) 0 [] 7 = 7 := by
  refine ⟨?_, ?_, ?_, ?_⟩
  · exact (c7_parseTTL_amended (fun _ => none) 0 [("Cache-Control", ["max-age=60"])] 7).2.1
      60 (by decide) (by decide)
  · exact (((c7_parseTTL_amended (fun _ => some 5) 0
      [("Cache-Control", ["public"]), ("Expires", ["later"])] 7).2.2.1
      (by decide) (by decide)).2.1 5 (by decide) rfl).1 (by decide)
  · exact (((c7_parseTTL_amended (fun _ => some (-3)) 0
      [("Cache-Control", ["public"]), ("Expires", ["earlier"])] 7).2.2.1
      (by decide) (by decide)).2.1 (-3) (by decide) rfl).2 (by decide)
  · exact (c7_parseTTL_amended (fun _ => none) 0 [] 7).1 (by decide)

/-- Counterexample to C7 as stated: `Cache-Control: max-age=-5` carries
no non-negative integer `max-age` value, so by the claim the (absent)
`Expires` path and then the default of 10 s should apply; the code parses
the negative value with `strconv.Atoi` and returns −5 s.  (This behaviour
also contradicts the repository's own `FuzzParseTTL` test, which rejects
any negative result.) -/
theorem c7_counterexample :
    parseTTL (fun _ => none) 0 [("Cache-Control", ["max-age=-5"])] 10000000000 =
      -5000000000 ∧
    (-5000000000 : Int) ≠ 10000000000 := by
  constructor
  · decide
  · decide

/-! ### Cache-store lemmas -/

theorem sumSizes_cons (p : String × Entry) (l : List (String × Entry)) :
    sumSizes (p :: l) = p.2.size + sumSizes l := by
  simp [sumSizes]

theorem sumSizes_reverse (l : List (String × Entry)) :
    sumSizes l.reverse = sumSizes l := by
  simp [sumSizes, List.sum_reverse]

theorem lookupKey_not_mem (k : String) (l : List (String × Entry))
    (h : k ∉ l.map Prod.fst) : lookupKey k l = none := by
  induction l with
  | nil => rfl
  | cons p rest ih =>
    cases p with
    | mk k2 e2 =>
      simp only [List.map_cons, List.mem_cons] at h
      push_neg at h
      simp only [lookupKey]
      rw [if_neg (fun he => h.1 he.symm)]
      exact ih h.2

theorem eraseKey_sumSizes (k : String) (e : Entry) (l : List (String × Entry))
    (h : lookupKey k l = some e) :
    sumSizes (eraseKey k l) = sumSizes l - e.size := by
  induction l with
  | nil => simp [lookupKey] at h
  | cons p rest ih =>
    cases p with
    | mk k2 e2 =>
      simp only [lookupKey] at h
      simp only [eraseKey]
      split_ifs with hc
      · rw [if_pos hc] at h
        cases h
        rw [sumSizes_cons]
        ring
      · rw [if_neg hc] at h
        rw [sumSizes_cons, sumSizes_cons, ih h]
        ring

theorem lookupKey_eraseKey_self (k : String) (l : List (String × Entry))
    (hnd : (l.map Prod.fst).Nodup) : lookupKey k (eraseKey k l) = none := by
  induction l with
  | nil => rfl
  | cons p rest ih =>
    cases p with
    | mk k2 e2 =>
      simp only [List.map_cons, List.nodup_cons] at hnd
      simp only [eraseKey]
      split_ifs with hc
      · subst hc
        exact lookupKey_not_mem k2 rest hnd.1
      · simp only [lookupKey]
        rw [if_neg hc]
        exact ih hnd.2

theorem eraseKey_keys_nodup (k : String) (l : List (String × Entry))
    (hnd : (l.map Prod.fst).Nodup) : ((eraseKey k l).map Prod.fst).Nodup := by
  induction l with
  | nil => exact hnd
  | cons p rest ih =>
    cases p with
    | mk k2 e2 =>
      simp only [List.map_cons, List.nodup_cons] at hnd
      simp only [eraseKey]
      split_ifs with hc
      · exact hnd.2
      · simp only [List.map_cons, List.nodup_cons]
        refine ⟨?_, ih hnd.2⟩
        intro hmem
        apply hnd.1
        clear ih hnd
        induction rest with
        | nil => simp [eraseKey] at hmem
        | cons q rest2 ih2 =>
          cases q with
          | mk k3 e3 =>
            simp only [eraseKey] at hmem
            split_ifs at hmem with hc2
            · simp only [List.map_cons, List.mem_cons]
              right
              exact hmem
            · simp only [List.map_cons, List.mem_cons] at hmem ⊢
              rcases hmem with h | h
              · exact Or.inl h
              · exact Or.inr (ih2 h)

theorem not_mem_eraseKey_keys (k : String) (l : List (String × Entry))
    (hnd : (l.map Prod.fst).Nodup) : k ∉ (eraseKey k l).map Prod.fst := by
  induction l with
  | nil => simp [eraseKey]
  | cons p rest ih =>
    cases p with
    | mk k2 e2 =>
      simp only [List.map_cons, List.nodup_cons] at hnd
      simp only [eraseKey]
      split_ifs with hc
      · subst hc
        exact hnd.1
      · simp only [List.map_cons, List.mem_cons]
        push_neg
        exact ⟨fun he => hc he.symm, ih hnd.2⟩

theorem lookupKey_none_not_mem (k : String) (l : List (String × Entry))
    (h : lookupKey k l = none) : k ∉ l.map Prod.fst := by
  induction l with
  | nil => simp
  | cons p rest ih =>
    cases p with
    | mk k2 e2 =>
      simp only [lookupKey] at h
      by_cases hc : k2 = k
      · rw [if_pos hc] at h
        exact Option.noConfusion h
      · rw [if_neg hc] at h
        simp only [List.map_cons, List.mem_cons]
        push_neg
        exact ⟨fun he => hc he.symm, ih h⟩

theorem pushedList_keys_nodup (c : MemoryCache) (key : String) (e : Entry)
    (hnd : (c.lru.map Prod.fst).Nodup) :
    ((pushedList c key e).map Prod.fst).Nodup := by
  simp only [pushedList]
  rcases hl : lookupKey key c.lru with _ | old
  · simp only [List.map_cons, List.nodup_cons]
    exact ⟨lookupKey_none_not_mem key c.lru hl, hnd⟩
  · simp only [List.map_cons, List.nodup_cons]
    exact ⟨not_mem_eraseKey_keys key c.lru hnd, eraseKey_keys_nodup key c.lru hnd⟩

theorem evictRev_inv (m : Int) (l : List (String × Entry)) (s : Int) (h : s = sumSizes l) :
    (evictRev m s l).1 = sumSizes (evictRev m s l).2 := by
  induction l generalizing s with
  | nil =>
    simpa [evictRev] using h
  | cons p rest ih =>
    cases p with
    | mk k e =>
      simp only [evictRev]
      split_ifs with hc
      · exact ih (s - e.size) (by rw [h, sumSizes_cons]; ring)
      · simpa using h

theorem evictRev_post (m : Int) (l : List (String × Entry)) (s : Int) :
    (evictRev m s l).1 ≤ m ∨ (evictRev m s l).2 = [] := by
  induction l generalizing s with
  | nil => right; rfl
  | cons p rest ih =>
    cases p with
    | mk k e =>
      simp only [evictRev]
      split_ifs with hc
      · exact ih (s - e.size)
      · left
        simpa using not_lt.mp hc

theorem evictRev_suffix (m : Int) (l : List (String × Entry)) (s : Int) :
    ∃ d, l = d ++ (evictRev m s l).2 := by
  induction l generalizing s with
  | nil => exact ⟨[], rfl⟩
  | cons p rest ih =>
    cases p with
    | mk k e =>
      simp only [evictRev]
      split_ifs with hc
      · obtain ⟨d, hd⟩ := ih (s - e.size)
        exact ⟨(k, e) :: d, by rw [List.cons_append, ← hd]⟩
      · exact ⟨[], rfl⟩

theorem setOp_size (c : MemoryCache) (key : String) (e : Entry) :
    (setOp c key e).size =
      (evictRev c.maxSize (sizeAfterReplace c key e) (pushedList c key e).reverse).1 := rfl

theorem setOp_lru (c : MemoryCache) (key : String) (e : Entry) :
    (setOp c key e).lru =
      (evictRev c.maxSize (sizeAfterReplace c key e) (pushedList c key e).reverse).2.reverse :=
  rfl

theorem setOp_maxSize (c : MemoryCache) (key : String) (e : Entry) :
    (setOp c key e).maxSize = c.maxSize := rfl

theorem sizeAfterReplace_eq (c : MemoryCache) (key : String) (e : Entry) (h : sizeInv c) :
    sizeAfterReplace c key e = sumSizes (pushedList c key e) := by
  rcases hl : lookupKey key c.lru with _ | old
  · simp only [sizeAfterReplace, pushedList, hl, sumSizes_cons]
    rw [h]
    ring
  · simp only [sizeAfterReplace, pushedList, hl, sumSizes_cons,
      eraseKey_sumSizes key old c.lru hl]
    rw [h]
    ring

theorem sizeInv_setOp (c : MemoryCache) (key : String) (e : Entry) (h : sizeInv c) :
    sizeInv (setOp c key e) := by
  show (setOp c key e).size = sumSizes (setOp c key e).lru
  rw [setOp_size, setOp_lru, sumSizes_reverse]
  exact evictRev_inv c.maxSize (pushedList c key e).reverse (sizeAfterReplace c key e)
    (by rw [sumSizes_reverse]; exact sizeAfterReplace_eq c key e h)

theorem setOp_size_le (c : MemoryCache) (key : String) (e : Entry)
    (h : sizeInv c) (hmax : 0 ≤ c.maxSize) :
    (setOp c key e).size ≤ c.maxSize := by
  rcases evictRev_post c.maxSize (pushedList c key e).reverse (sizeAfterReplace c key e)
    with hle | hnil
  · rw [setOp_size]
    exact hle
  · have h1 := sizeInv_setOp c key e h
    have h2 : (setOp c key e).lru = [] := by
      rw [setOp_lru, hnil]
      rfl
    rw [sizeInv, h2] at h1
    rw [h1]
    simpa [sumSizes] using hmax

theorem sizeInv_getOp (c : MemoryCache) (now : Int) (key : String) (h : sizeInv c) :
    sizeInv (getOp c now key).2 := by
  rcases hl : lookupKey key c.lru with _ | e
  · simpa [getOp, hl] using h
  · simp only [getOp, hl]
    split_ifs with hc
    · show c.size - e.size = sumSizes (eraseKey key c.lru)
      rw [eraseKey_sumSizes key e c.lru hl, h]
    · show c.size = sumSizes ((key, e) :: eraseKey key c.lru)
      rw [sumSizes_cons, eraseKey_sumSizes key e c.lru hl, h]
      ring

theorem sizeInv_deleteOp (c : MemoryCache) (key : String) (h : sizeInv c) :
    sizeInv (deleteOp c key) := by
  rcases hl : lookupKey key c.lru with _ | e
  · simpa [deleteOp, hl] using h
  · simp only [deleteOp, hl]
    show c.size - e.size = sumSizes (eraseKey key c.lru)
    rw [eraseKey_sumSizes key e c.lru hl, h]

theorem sizeInv_clearOp (c : MemoryCache) : sizeInv (clearOp c) := rfl

theorem sizeInv_applyCacheOp (c : MemoryCache) (op : CacheOp) (h : sizeInv c) :
    sizeInv (applyCacheOp c op) := by
  cases op with
  | set k e => exact sizeInv_setOp c k e h
  | get now k => exact sizeInv_getOp c now k h
  | del k => exact sizeInv_deleteOp c k h
  | clear => exact sizeInv_clearOp c

theorem sizeInv_applyCacheOps (c : MemoryCache) (ops : List CacheOp) (h : sizeInv c) :
    sizeInv (applyCacheOps c ops) := by
  induction ops generalizing c with
  | nil => exact h
  | cons op rest ih =>
    exact ih (applyCacheOp c op) (sizeInv_applyCacheOp c op h)

theorem maxSize_applyCacheOp (c : MemoryCache) (op : CacheOp) :
    (applyCacheOp c op).maxSize = c.maxSize := by
  cases op with
  | set k e => rfl
  | get now k =>
    rcases hl : lookupKey k c.lru with _ | e
    · simp [applyCacheOp, getOp, hl]
    · simp only [applyCacheOp, getOp, hl]
      split_ifs <;> rfl
  | del k =>
    rcases hl : lookupKey k c.lru with _ | e
    · simp [applyCacheOp, deleteOp, hl]
    · simp [applyCacheOp, deleteOp, hl]
  | clear => rfl

theorem maxSize_applyCacheOps (c : MemoryCache) (ops : List CacheOp) :
    (applyCacheOps c ops).maxSize = c.maxSize := by
  induction ops generalizing c with
  | nil => rfl
  | cons op rest ih =>
    rw [applyCacheOps, List.foldl_cons]
    rw [show List.foldl applyCacheOp (applyCacheOp c op) rest =
      applyCacheOps (applyCacheOp c op) rest from rfl]
    rw [ih (applyCacheOp c op), maxSize_applyCacheOp]

/-- The LRU list of a `Get` hit: the accessed pair moves to the front and
the remaining order is preserved. -/
theorem getOp_hit_lru (c : MemoryCache) (now : Int) (key : String) (e : Entry)
    (h : (getOp c now key).1 = some e) :
    (getOp c now key).2.lru = (key, e) :: eraseKey key c.lru := by
  rcases hl : lookupKey key c.lru with _ | e0
  · simp [getOp, hl] at h
  · simp only [getOp, hl] at h ⊢
    split_ifs at h ⊢ with hc
    have he : e0 = e := Option.some_inj.mp h
    subst he
    rfl

/-- The surviving LRU list of a `Set` is an initial segment of the list
as pushed (front inclusive): eviction only removes elements from the
back. -/
theorem setOp_lru_kept (c : MemoryCache) (key : String) (e : Entry) :
    ∃ dropped, pushedList c key e = (setOp c key e).lru ++ dropped := by
  obtain ⟨d, hd⟩ := evictRev_suffix c.maxSize (pushedList c key e).reverse
    (sizeAfterReplace c key e)
  refine ⟨d.reverse, ?_⟩
  rw [setOp_lru]
  have h2 := congrArg List.reverse hd
  simpa [List.reverse_append] using h2

theorem pushedList_head (c : MemoryCache) (key : String) (e : Entry) :
    (pushedList c key e).head? = some (key, e) := by
  rcases hl : lookupKey key c.lru with _ | old <;> simp [pushedList, hl]

/-- Claim C1 (confirmed): starting from a fresh store, after any sequence
of `Set`/`Get`/`Delete`/`Clear` operations (with their internal evictions
and lazy expiries) the recorded total size equals the sum of the sizes of
the present entries, and immediately after any operation sequence ending
in a `Set` the total is at most `max_size`.  The hypothesis
`0 ≤ maxSize` reflects `config.Validate`, which rejects non-positive
cache sizes; the entry-size non-negativity hypothesis is the one the
claim itself states (the proof does not even need it). -/
theorem c1_size_accounting (maxSize defaultTTL : Int) (ops : List CacheOp)
    (hmax : 0 ≤ maxSize) (hnn : ∀ op ∈ ops, opEntryNonneg op) :
    sizeInv (applyCacheOps (newMemoryCache maxSize defaultTTL) ops) ∧
    (∀ pre key entry, ops = pre ++ [CacheOp.set key entry] →
      (applyCacheOps (newMemoryCache maxSize defaultTTL) ops).size ≤ maxSize) := by
  constructor
  · exact sizeInv_applyCacheOps _ ops rfl
  · rintro pre key entry rfl
    have hsplit : applyCacheOps (newMemoryCache maxSize defaultTTL)
        (pre ++ [CacheOp.set key entry]) =
        setOp (applyCacheOps (newMemoryCache maxSize defaultTTL) pre) key entry := by
      rw [applyCacheOps, List.foldl_append]
      rfl
    rw [hsplit]
    have hin : sizeInv (applyCacheOps (newMemoryCache maxSize defaultTTL) pre) :=
      sizeInv_applyCacheOps _ pre rfl
    have hms : (applyCacheOps (newMemoryCache maxSize defaultTTL) pre).maxSize = maxSize := by
      rw [maxSize_applyCacheOps]
      rfl
    have h := setOp_size_le (applyCacheOps (newMemoryCache maxSize defaultTTL) pre)
      key entry hin (by rw [hms]; exact hmax)
    rwa [hms] at h

/-- Witness for C1: two inserts of sizes 5 and 6 into a 10-byte store;
the invariant holds and the final size respects the bound (the first
entry is evicted). -/
theorem c1_size_accounting_witness :
    sizeInv (applyCacheOps (newMemoryCache 10 0)
      [CacheOp.set "a" (mkEntry 100 5), CacheOp.set "b" (mkEntry 100 6)]) ∧
    (∀ pre key entry,
      [CacheOp.set "a" (mkEntry 100 5), CacheOp.set "b" (mkEntry 100 6)] =
        pre ++ [CacheOp.set key entry] →
      (applyCacheOps (newMemoryCache 10 0)
        [CacheOp.set "a" (mkEntry 100 5), CacheOp.set "b" (mkEntry 100 6)]).size ≤ 10) :=
  c1_size_accounting 10 0 _ (by decide)
    (by
      intro op h
      simp only [List.mem_cons, List.not_mem_nil, or_false] at h
      rcases h with rfl | rfl <;> norm_num [opEntryNonneg, mkEntry])

/-- Claim C2, amended (corrected): `Get(key)` at time `t` returns the
stored entry exactly when the key is present and `t ≤ expires_at`: the
boundary instant `t = expires_at` is still a hit because the code uses
the strict comparison `time.Now().After(ExpiresAt)`, whereas the claim
demanded a miss for all `t ≥ expires_at` (see the counterexample).  For
`t > expires_at` the call returns absent and lazily deletes the expired
entry, adjusting the size accounting; on a hit the entry moves to the
front of the LRU order with the rest of the order preserved. -/
theorem c2_get_ttl_amended (c : MemoryCache) (now : Int) (key : String)
    (hnd : (c.lru.map Prod.fst).Nodup) :
    (∀ e, (getOp c now key).1 = some e ↔
      (lookupKey key c.lru = some e ∧ now ≤ e.expiresAt)) ∧
    (∀ e, lookupKey key c.lru = some e → e.expiresAt < now →
      (getOp c now key).1 = none ∧
      lookupKey key (getOp c now key).2.lru = none ∧
      (getOp c now key).2.size = c.size - e.size) ∧
    (∀ e, (getOp c now key).1 = some e →
      (getOp c now key).2.lru = (key, e) :: eraseKey key c.lru) := by
  refine ⟨?_, ?_, ?_⟩
  · intro e
    rcases hl : lookupKey key c.lru with _ | e0
    · simp [getOp, hl]
    · simp only [getOp, hl]
      split_ifs with hc
      · constructor
        · intro h
          simp at h
        · rintro ⟨he, ht⟩
          injection he with he
          subst he
          omega
      · constructor
        · intro h
          have he : e0 = e := Option.some_inj.mp h
          subst he
          exact ⟨rfl, by omega⟩
        · rintro ⟨he, -⟩
          injection he with he
          subst he
          rfl
  · intro e hl hexp
    have hred : getOp c now key =
        (none, { c with lru := eraseKey key c.lru, size := c.size - e.size }) := by
      simp [getOp, hl, hexp]
    rw [hred]
    exact ⟨rfl, lookupKey_eraseKey_self key c.lru hnd, rfl⟩
  · intro e h
    exact getOp_hit_lru c now key e h

/-- Witness for C2 (amended): a 50-expiry entry is a hit at `t = 10` and
a lazily deleted miss at `t = 60`. -/
theorem c2_get_ttl_amended_witness :
    (getOp (setOp (newMemoryCache 100 0) "k" (mkEntry 50 5)) 10 "k").1 =
      some (mkEntry 50 5) ∧
    ((getOp (setOp (newMemoryCache 100 0) "k" (mkEntry 50 5)) 60 "k").1 = none ∧
      lookupKey "k"
        (getOp (setOp (newMemoryCache 100 0) "k" (mkEntry 50 5)) 60 "k").2.lru = none ∧
      (getOp (setOp (newMemoryCache 100 0) "k" (mkEntry 50 5)) 60 "k").2.size =
        (setOp (newMemoryCache 100 0) "k" (mkEntry 50 5)).size - (mkEntry 50 5).size) := by
  constructor
  · exact ((c2_get_ttl_amended (setOp (newMemoryCache 100 0) "k" (mkEntry 50 5)) 10 "k"
      (by decide)).1 (mkEntry 50 5)).mpr ⟨by decide, by decide⟩
  · exact (c2_get_ttl_amended (setOp (newMemoryCache 100 0) "k" (mkEntry 50 5)) 60 "k"
      (by decide)).2.1 (mkEntry 50 5) (by decide) (by decide)

/-- Counterexample to C2 as stated: at the exact expiry instant
`t = expires_at = 100` the claim demands a miss, but `Get` returns the
entry (the code only expires strictly after `ExpiresAt`). -/
theorem c2_counterexample :
    (getOp (setOp (newMemoryCache 10 0) "k" (mkEntry 100 5)) 100 "k").1 =
      some (mkEntry 100 5) ∧
    (mkEntry 100 5).expiresAt ≤ 100 := by
  constructor
  · decide
  · decide

/-- Claim C3 (confirmed): (i) a `Get` hit leaves the accessed entry at
the front of the LRU order; (ii) `Set` pushes the new entry to the front
and its eviction loop removes only a suffix (the least-recently-used
back) of the list; (iii) if the just-inserted entry survives at all it is
at the front; (iv) consequently, of two entries the more recently
used one (closer to the front when a `Set` runs) is evicted only if the
less recently used one is evicted too. -/
theorem c3_lru_eviction_order :
    (∀ (c : MemoryCache) (now : Int) (key : String) (e : Entry),
      (getOp c now key).1 = some e →
      (getOp c now key).2.lru.head? = some (key, e)) ∧
    (∀ (c : MemoryCache) (key : String) (e : Entry),
      ∃ dropped, pushedList c key e = (setOp c key e).lru ++ dropped) ∧
    (∀ (c : MemoryCache) (key : String) (e : Entry),
      (setOp c key e).lru ≠ [] → (setOp c key e).lru.head? = some (key, e)) ∧
    (∀ (c : MemoryCache) (key : String) (e : Entry)
      (l1 l2 l3 : List (String × Entry)) (p q : String × Entry),
      (c.lru.map Prod.fst).Nodup →
      pushedList c key e = l1 ++ p :: (l2 ++ q :: l3) →
      p ∉ (setOp c key e).lru → q ∉ (setOp c key e).lru) := by
  refine ⟨?_, ?_, ?_, ?_⟩
  · intro c now key e h
    rw [getOp_hit_lru c now key e h]
    rfl
  · intro c key e
    exact setOp_lru_kept c key e
  · intro c key e hne
    rcases hk : (setOp c key e).lru with _ | ⟨p0, rest⟩
    · exact absurd hk hne
    · obtain ⟨dropped, hd⟩ := setOp_lru_kept c key e
      rw [hk] at hd
      have h1 : (pushedList c key e).head? = some p0 := by rw [hd]; rfl
      rw [pushedList_head] at h1
      injection h1 with h1
      simp [h1]
  · intro c key e l1 l2 l3 p q hnd hdec hp hq
    obtain ⟨dropped, hd⟩ := setOp_lru_kept c key e
    have hnodup : (pushedList c key e).Nodup :=
      List.Nodup.of_map Prod.fst (pushedList_keys_nodup c key e hnd)
    rw [hdec] at hnodup
    have hqr : q ∈ p :: (l2 ++ q :: l3) :=
      List.mem_cons_of_mem p (List.mem_append_right l2 (List.mem_cons_self q l3))
    have hql1 : q ∈ l1 → False := by
      intro hmem
      rw [List.nodup_append] at hnodup
      exact hnodup.2.2 hmem hqr
    have heq : (setOp c key e).lru ++ dropped = l1 ++ p :: (l2 ++ q :: l3) := by
      rw [← hd, hdec]
    rcases List.append_eq_append_iff.mp heq with ⟨a, ha1, ha2⟩ | ⟨a, ha1, ha2⟩
    · exact hql1 (ha1 ▸ List.mem_append_left a hq)
    · rcases a with _ | ⟨p0, c2⟩
      · rw [List.append_nil] at ha1
        exact hql1 (ha1 ▸ hq)
      · injection ha2 with hph hrest
        subst hph
        exact hp (ha1 ▸ List.mem_append_right l1 (List.mem_cons_self p c2))

/-- Witness for C3: a full store (two size-5 entries, capacity 5 after
it is exceeded by a third insert of size 5) — the insert lands at the
front and both older entries, the back one first, are evicted; a `Get`
on the front store moves the hit to the front. -/
theorem c3_lru_eviction_order_witness :
    (getOp
      { maxSize := 5, size := 10,
        lru := [("a", mkEntry 100 5), ("b", mkEntry 100 5)], defaultTTL := 0 }
      0 "a").2.lru.head? = some ("a", mkEntry 100 5) ∧
    (setOp
      { maxSize := 5, size := 10,
        lru := [("a", mkEntry 100 5), ("b", mkEntry 100 5)], defaultTTL := 0 }
      "c" (mkEntry 100 5)).lru.head? = some ("c", mkEntry 100 5) ∧
    ("b", mkEntry 100 5) ∉
      (setOp
        { maxSize := 5, size := 10,
          lru := [("a", mkEntry 100 5), ("b", mkEntry 100 5)], defaultTTL := 0 }
        "c" (mkEntry 100 5)).lru := by
  refine ⟨?_, ?_, ?_⟩
  · exact c3_lru_eviction_order.1 _ 0 "a" (mkEntry 100 5) (by decide)
  · exact c3_lru_eviction_order.2.2.1 _ "c" (mkEntry 100 5) (by decide)
  · exact c3_lru_eviction_order.2.2.2 _ "c" (mkEntry 100 5)
      [("c", mkEntry 100 5)] [] [] ("a", mkEntry 100 5) ("b", mkEntry 100 5)
      (by decide) (by decide) (by decide)

end WProxy
